import Mathlib

/-!
Shallow embedding of the price-normalization, slug-generation and CSV
deduplication logic of the scraper_and_csv_processor repository.

Strings are modelled as Lean `String`/`List Char`; Python floats are
modelled as exact rationals (`ℚ`); functions that catch exceptions are
modelled as total functions returning the documented fallback.
-/

namespace Scraper

/-- Python ASCII whitespace, the characters stripped by `str.strip()` and
matched by the regex class `\s` on the ASCII inputs handled here. -/
def pyIsSpace (c : Char) : Bool :=
  c = ' ' || c = Char.ofNat 9 || c = Char.ofNat 10 ||
  c = Char.ofNat 13 || c = Char.ofNat 11 || c = Char.ofNat 12

/-- Lower-case ASCII letter or ASCII digit: the characters `[a-z0-9]`. -/
def isLowerNum (c : Char) : Bool :=
  (97 ≤ c.toNat && c.toNat ≤ 122) || (48 ≤ c.toNat && c.toNat ≤ 57)

/-- ASCII digit `[0-9]`. -/
def isDigitC (c : Char) : Bool :=
  48 ≤ c.toNat && c.toNat ≤ 57

/-- ASCII letter `[a-zA-Z]`. -/
def isAlphaC (c : Char) : Bool :=
  (97 ≤ c.toNat && c.toNat ≤ 122) || (65 ≤ c.toNat && c.toNat ≤ 90)

/-- Python `str.lower()` on one character, restricted to ASCII case
mapping, which is all the repository's inputs exercise. -/
def toLowerChar (c : Char) : Char :=
  if 65 ≤ c.toNat && c.toNat ≤ 90 then Char.ofNat (c.toNat + 32) else c

/-- Characters kept by `re.sub(r'[^a-z0-9\s-]', '', slug)` in
`generate_slug`: lower-case letters, digits, whitespace and hyphen. -/
def keepSlug (c : Char) : Bool :=
  isLowerNum c || pyIsSpace c || c = '-'

/-- Regex substitution `p+ -> r`: each maximal run of characters
satisfying `p` is replaced by the single character `r`.  The boolean flag
records whether the scan is currently inside such a run. -/
def collapseRuns (p : Char → Bool) (r : Char) : Bool → List Char → List Char
  | _, [] => []
  | b, c :: cs =>
    if p c then
      if b then collapseRuns p r true cs else r :: collapseRuns p r true cs
    else
      c :: collapseRuns p r false cs

/-- Python `str.lstrip` with the character class `p`. -/
def lstripP (p : Char → Bool) (l : List Char) : List Char :=
  l.dropWhile p

/-- Python `str.rstrip` with the character class `p`: removes the maximal
trailing run of characters satisfying `p`. -/
def rstripP (p : Char → Bool) : List Char → List Char
  | [] => []
  | c :: cs =>
    match rstripP p cs with
    | [] => if p c then [] else [c]
    | d :: ds => c :: d :: ds

/-- Python `str.strip` with the character class `p`. -/
def stripP (p : Char → Bool) (l : List Char) : List Char :=
  rstripP p (lstripP p l)

/-- Whitespace strip, `str.strip()` with no argument. -/
def pyStrip (l : List Char) : List Char :=
  stripP pyIsSpace l

/-- Hyphen test used by `re.sub(r'-+', '-', ...)` and `strip('-')`. -/
def isHy (c : Char) : Bool :=
  c = '-'

/-- Character-list core of `generate_slug` from
slug_deduplicator/fix_duplicate_slugs.py: lower-case, drop characters
outside `[a-z0-9\s-]`, replace whitespace runs by one hyphen, collapse
hyphen runs, strip hyphens at both ends. -/
def slugChars (t : List Char) : List Char :=
  stripP isHy
    (collapseRuns isHy '-' false
      (collapseRuns pyIsSpace '-' false
        ((t.map toLowerChar).filter keepSlug)))

/-- `generate_slug(title)` from slug_deduplicator/fix_duplicate_slugs.py. -/
def generate_slug (title : String) : String :=
  String.mk (slugChars title.data)

/-! ## Python float parsing and two-digit formatting -/

/-- Numeric value of a list of ASCII digit characters, most significant
first. -/
def natOfDigits (l : List Char) : Nat :=
  l.foldl (fun a c => 10 * a + (c.toNat - 48)) 0

/-- Exponent suffix of a Python float literal: empty, or `e`/`E` with an
optional sign and a nonempty digit string consuming the whole rest. -/
def pyFloatExp (l : List Char) : Option ℤ :=
  match l with
  | [] => some 0
  | e :: rest =>
    if e = 'e' || e = 'E' then
      let (neg, ds) :=
        match rest with
        | '-' :: t => (true, t)
        | '+' :: t => (false, t)
        | t => (false, t)
      if ds ≠ [] && ds.all isDigitC then
        some (if neg then -(natOfDigits ds : ℤ) else (natOfDigits ds : ℤ))
      else none
    else none

/-- Mantissa of a Python float literal: `digits`, `digits.digits`,
`digits.` or `.digits`, with at least one digit, followed by an optional
exponent.  Everything else is a parse failure. -/
def pyFloatBody (l : List Char) : Option ℚ :=
  let ds := l.takeWhile isDigitC
  let r1 := l.dropWhile isDigitC
  match r1 with
  | '.' :: r2 =>
    let fs := r2.takeWhile isDigitC
    let r3 := r2.dropWhile isDigitC
    if ds = [] && fs = [] then none
    else
      match pyFloatExp r3 with
      | some e =>
        some (((natOfDigits ds : ℚ) + (natOfDigits fs : ℚ) / (10 : ℚ) ^ fs.length)
          * (10 : ℚ) ^ e)
      | none => none
  | _ =>
    if ds = [] then none
    else
      match pyFloatExp r1 with
      | some e => some ((natOfDigits ds : ℚ) * (10 : ℚ) ^ e)
      | none => none

/-- Python `float(s)`, modelled over exact rationals and restricted to
finite decimal literals: optional surrounding whitespace, optional sign,
digits with an optional point and an optional exponent.  The model omits
`inf`/`nan` and digit-group underscores, which no price string contains. -/
def pyFloat (l : List Char) : Option ℚ :=
  let t := pyStrip l
  match t with
  | '-' :: r => (pyFloatBody r).map (fun q => -q)
  | '+' :: r => pyFloatBody r
  | r => pyFloatBody r

/-- Round to the nearest integer, ties to the even integer, as Python's
fixed-point formatting does on the exact value. -/
def roundHalfEven (q : ℚ) : ℤ :=
  let n := ⌊q⌋
  let r := q - (n : ℚ)
  if r < 1 / 2 then n
  else if 1 / 2 < r then n + 1
  else if n % 2 = 0 then n else n + 1

/-- The two ASCII digit characters of a natural number below 100. -/
def digit2 (n : Nat) : List Char :=
  [Char.ofNat (48 + n / 10 % 10), Char.ofNat (48 + n % 10)]

/-- Python `f"{q:.2f}"`: fixed-point with exactly two fraction digits,
modelled on the exact rational value of the argument: an optional sign,
the integer part, a point, and the two fraction digits. -/
def fmt2 (q : ℚ) : String :=
  let n := roundHalfEven (q * 100)
  let a := n.natAbs
  String.mk ((if n < 0 then ['-'] else []) ++ (Nat.repr (a / 100)).data ++
    '.' :: digit2 (a % 100))

/-! ## process_price from src/main.py (eBay scraper) -/

/-- The separator `" to "` of variable prices. -/
def sepTo : List Char := [' ', 't', 'o', ' ']

/-- Python `" to " in s`. -/
def containsToSep : List Char → Bool
  | [] => false
  | c :: cs => sepTo.isPrefixOf (c :: cs) || containsToSep cs

/-- Worker for `s.split(" to ")`.  The fuel argument only bounds the
recursion for the termination checker; every step consumes at least one
character, so starting the fuel at the list length never exhausts it. -/
def splitToAux : Nat → List Char → List Char → List (List Char)
  | _, [], acc => [acc.reverse]
  | 0, l, acc => [acc.reverse ++ l]
  | fuel + 1, c :: cs, acc =>
    if sepTo.isPrefixOf (c :: cs) then
      acc.reverse :: splitToAux fuel (cs.drop 3) []
    else
      splitToAux fuel cs (c :: acc)

/-- Python `s.split(" to ")`. -/
def splitToSep (l : List Char) : List (List Char) :=
  splitToAux l.length l []

/-- `x.replace("$", "").replace(",", "")`. -/
def remDC (l : List Char) : List Char :=
  l.filter (fun c => !(c = '$' || c = ','))

/-- The key function of the `max` call in `process_price`. -/
def priceKey (x : List Char) : Option ℚ :=
  pyFloat (remDC x)

/-- Worker for Python `max(pieces, key=...)`: keeps the first element of
maximal key, and fails if any key fails to parse. -/
def maxByAux : List (List Char) → List Char → ℚ → Option (List Char)
  | [], best, _ => some best
  | x :: xs, best, bk =>
    match priceKey x with
    | none => none
    | some k => if bk < k then maxByAux xs x k else maxByAux xs best bk

/-- Python `max(pieces, key=lambda x: float(x.replace("$","").replace(",","")))`,
with `none` standing for the `ValueError` a malformed piece raises. -/
def maxByKey : List (List Char) → Option (List Char)
  | [] => none
  | x :: xs =>
    match priceKey x with
    | none => none
    | some k => maxByAux xs x k

/-- `process_price(price_str, price_multiplier)` from src/main.py.  The
function strips the input, takes the larger bound of a `" to "` range,
removes `$` and `,`, multiplies by the multiplier and formats the result
with two fraction digits; on any `ValueError` it returns the string the
local variable `price_str` holds at that point. -/
def process_price (s : String) (m : ℚ) : String :=
  let l := pyStrip s.data
  if containsToSep l then
    match maxByKey (splitToSep l) with
    | none => String.mk l
    | some chosen =>
      match pyFloat (remDC chosen) with
      | some q => fmt2 (q * m)
      | none => String.mk chosen
  else
    match pyFloat (remDC l) with
    | some q => fmt2 (q * m)
    | none => String.mk l

/-! ## clean_price from src/aliexpress_scraper/main.py -/

/-- Index of the last occurrence of `c` in `l` (Python `str.rindex`),
meaningful only when `c` occurs in `l`. -/
def lastIdxOf (c : Char) (l : List Char) : Nat :=
  l.length - 1 - (l.reverse.takeWhile (fun d => !(d = c))).length

/-- The segment after the last occurrence of `c`, Python
`l.split(c)[-1]`. -/
def afterLast (c : Char) (l : List Char) : List Char :=
  (l.reverse.takeWhile (fun d => !(d = c))).reverse

/-- Decimal/thousands separator disambiguation of `clean_price`:
if both `.` and `,` occur, the one occurring last is the decimal
separator (all dots are removed and all commas become dots, or all commas
are removed); if only `,` occurs, all commas become dots when at most two
characters follow the last comma, otherwise all commas are removed. -/
def sepNormalize (pc : List Char) : List Char :=
  if pc.contains ',' && pc.contains '.' then
    if lastIdxOf ',' pc > lastIdxOf '.' pc then
      (pc.filter (fun c => !(c = '.'))).map (fun c => if c = ',' then '.' else c)
    else
      pc.filter (fun c => !(c = ','))
  else if pc.contains ',' then
    if (afterLast ',' pc).length ≤ 2 then
      pc.map (fun c => if c = ',' then '.' else c)
    else
      pc.filter (fun c => !(c = ','))
  else pc

/-- `clean_price(price_str, price_multiplier)` from
src/aliexpress_scraper/main.py: empty, `"N/A"` and whitespace-only
inputs yield `"0.00"`; otherwise the input is stripped, reduced to
digits, dots and commas, separator-normalized and parsed; parse failures
also yield `"0.00"`. -/
def clean_price (s : String) (m : ℚ) : String :=
  if s = "" || s = "N/A" || pyStrip s.data = [] then "0.00"
  else
    let t := pyStrip s.data
    let pc := t.filter (fun c => isDigitC c || c = '.' || c = ',')
    if pc = [] then "0.00"
    else
      match pyFloat (sepNormalize pc) with
      | some q => fmt2 (q * m)
      | none => "0.00"

/-- Follows the spec's words for claim C5 (refinement reference): the
only-comma branch treats the comma as the decimal separator exactly when
one or two digits follow the last comma, and otherwise removes all
commas as thousands separators.  All other branches are as in the
code. -/
def clean_price_per_claim (s : String) (m : ℚ) : String :=
  if s = "" || s = "N/A" || pyStrip s.data = [] then "0.00"
  else
    let t := pyStrip s.data
    let pc := t.filter (fun c => isDigitC c || c = '.' || c = ',')
    if pc = [] then "0.00"
    else
      let pc2 :=
        if pc.contains ',' && pc.contains '.' then
          if lastIdxOf ',' pc > lastIdxOf '.' pc then
            (pc.filter (fun c => !(c = '.'))).map (fun c => if c = ',' then '.' else c)
          else
            pc.filter (fun c => !(c = ','))
        else if pc.contains ',' then
          if 1 ≤ (afterLast ',' pc).length && (afterLast ',' pc).length ≤ 2 then
            pc.map (fun c => if c = ',' then '.' else c)
          else
            pc.filter (fun c => !(c = ','))
        else pc
      match pyFloat pc2 with
      | some q => fmt2 (q * m)
      | none => "0.00"

/-! ## find_and_fix_duplicates from src/slug_deduplicator/fix_duplicate_slugs.py -/

/-- Output of the row-processing loop of `find_and_fix_duplicates`: the
rows appended to the output and the length of `duplicates_fixed`. -/
structure FixResult where
  rows : List (List String)
  fixes : Nat
  deriving DecidableEq, Repr

/-- The row loop of `find_and_fix_duplicates`.  `seen` holds the slugs of
the original titles read so far; a row whose original title's slug was
already seen gets `" - "` and its product id appended to the title.
Rows with fewer than two fields are counted but not appended. -/
def fixRowsAux (seen : List String) : List (List String) → FixResult
  | [] => ⟨[], 0⟩
  | row :: rest =>
    match row with
    | pid :: title :: others =>
      let slug := generate_slug title
      let isDup := seen.contains slug
      let newRow := if isDup then pid :: (title ++ " - " ++ pid) :: others else row
      let r := fixRowsAux (slug :: seen) rest
      ⟨newRow :: r.rows, (if isDup then 1 else 0) + r.fixes⟩
    | _ => fixRowsAux seen rest

/-- Data-row behaviour of `find_and_fix_duplicates`: the list of output
data rows and the `total_fixes_applied` statistic. -/
def find_and_fix_duplicates (rows : List (List String)) : FixResult :=
  fixRowsAux [] rows

/-! ## clean_encoded_slugs from src/csv_cleaner/clean_encoded_slugs.py -/

/-- ASCII hexadecimal digit. -/
def isHexC (c : Char) : Bool :=
  isDigitC c || (97 ≤ c.toNat && c.toNat ≤ 102) || (65 ≤ c.toNat && c.toNat ≤ 70)

/-- Value of a hexadecimal digit character. -/
def hexVal (c : Char) : Nat :=
  if isDigitC c then c.toNat - 48
  else if 97 ≤ c.toNat then c.toNat - 87
  else c.toNat - 55

/-- `has_url_encoding(slug)`: `re.search(r'%[0-9a-fA-F]{2}', slug)` is
not `None`. -/
def has_url_encoding : List Char → Bool
  | c :: a :: b :: rest =>
    (c = '%' && isHexC a && isHexC b) || has_url_encoding (a :: b :: rest)
  | _ => false

/-- Model of `urllib.parse.unquote`: every `%xx` escape with an ASCII
byte becomes that character; an escape with a byte at or above `0x80` is
modelled as one `U+FFFD` per byte.  Python instead UTF-8-decodes runs of
such bytes (with `errors='replace'`), but every character either model
produces for those bytes is non-ASCII and is removed by the non-ASCII
strip that follows in `decode_and_clean_slug`, so the two models agree
from that point on.  `%` not followed by two hex digits stays literal. -/
def unquoteModel : List Char → List Char
  | [] => []
  | c :: a :: b :: rest2 =>
    if c = '%' && isHexC a && isHexC b then
      let v := hexVal a * 16 + hexVal b
      (if v ≤ 127 then Char.ofNat v else Char.ofNat 0xFFFD) :: unquoteModel rest2
    else c :: unquoteModel (a :: b :: rest2)
  | c :: rest => c :: unquoteModel rest

/-- Code point range test for the unicode-category removals. -/
def inRange (lo hi : Nat) (c : Char) : Bool :=
  lo ≤ c.toNat && c.toNat ≤ hi

/-- `decode_and_clean_slug(encoded_slug)`: decode `%xx` escapes, strip
emoji/CJK/Arabic and all remaining non-ASCII characters, replace runs of
characters outside `[a-zA-Z0-9-]` with one hyphen, collapse hyphen runs,
strip hyphens, and lower-case the nonempty result. -/
def decode_and_clean_slug (s : String) : String :=
  let d0 := unquoteModel s.data
  let d1 := d0.filter (fun c => !(inRange 0x1F000 0x1F9FF c))
  let d2 := d1.filter (fun c => !(inRange 0x2600 0x27BF c))
  let d3 := d2.filter (fun c => !(inRange 0x1F300 0x1F5FF c))
  let d4 := d3.filter (fun c => !(inRange 0x1F900 0x1F9FF c))
  let d5 := d4.filter (fun c => !(inRange 0x1F600 0x1F64F c))
  let d6 := d5.filter (fun c => !(inRange 0x1F680 0x1F6FF c))
  let d7 := d6.filter (fun c => !(inRange 0x3000 0x303F c))
  let d8 := d7.filter (fun c => !(inRange 0x3040 0x309F c))
  let d9 := d8.filter (fun c => !(inRange 0x30A0 0x30FF c))
  let d10 := d9.filter (fun c => !(inRange 0x4E00 0x9FFF c))
  let d11 := d10.filter (fun c => !(inRange 0xFF00 0xFFEF c))
  let d12 := d11.filter (fun c => !(c = Char.ofNat 0x3010 || c = Char.ofNat 0x3011))
  let d13 := d12.filter (fun c => !(inRange 0x600 0x6FF c))
  let d14 := d13.filter (fun c => !(inRange 0x750 0x77F c))
  let d15 := d14.filter (fun c => c.toNat ≤ 127)
  let c1 := collapseRuns (fun c => !(isAlphaC c || isDigitC c || c = '-')) '-' false d15
  let c2 := collapseRuns isHy '-' false c1
  let c3 := stripP isHy c2
  if c3 = [] then "" else String.mk (c3.map toLowerChar)

/-- A CSV row as `csv.DictReader` yields it: field names paired with
string values, in field order. -/
def getField (row : List (String × String)) (k : String) : String :=
  match row.find? (fun p => p.1 = k) with
  | some p => p.2
  | none => ""

/-- Overwriting assignment `row[k] = v` for a key present in the row. -/
def setField (row : List (String × String)) (k : String) (v : String) :
    List (String × String) :=
  row.map (fun p => if p.1 = k then (p.1, v) else p)

/-- Loop body of `process_csv` for one row (`row_num` is the 1-based file
line, starting at 2): rows whose slug has no `%xx` pattern pass through
unchanged; otherwise the slug field is replaced by the cleaned slug, or
by `product-<id>` (falling back to `product-<row_num>`) when cleaning
yields the empty string. -/
def processRow (rowNum : Nat) (row : List (String × String)) :
    List (String × String) :=
  let os := getField row "slug"
  if has_url_encoding os.data then
    let cleaned := decode_and_clean_slug os
    let final :=
      if cleaned = "" then
        let pid0 := getField row "product_id"
        let pid := if pid0 ≠ "" then pid0 else getField row "id"
        "product-" ++ (if pid ≠ "" then pid else Nat.repr rowNum)
      else cleaned
    setField row "slug" final
  else row

/-- The row loop of `process_csv`, numbering rows from `n`. -/
def processRows (n : Nat) : List (List (String × String)) → List (List (String × String))
  | [] => []
  | r :: rs => processRow n r :: processRows (n + 1) rs

/-- `process_csv` of clean_encoded_slugs.py at the data level: with no
`slug` column it reports the error and produces no output rows (the
script prints the message and aborts before opening the output file);
otherwise every row is processed in order, numbered from 2. -/
def process_csv (fieldnames : List String) (rows : List (List (String × String))) :
    Except String (List (List (String × String))) :=
  if fieldnames = [] || !(fieldnames.contains "slug") then
    Except.error "No 'slug' column found in CSV!"
  else
    Except.ok (processRows 2 rows)

/-! ## FileDeduplicator from src/excel_csv_deduplicator/main.py -/

/-- A loaded dataframe: column names and rows of cell strings. -/
structure Frame where
  cols : List String
  rows : List (List String)
  deriving DecidableEq, Repr

/-- Index of a column name in a header (first occurrence). -/
def idxOfCol (c : String) : List String → Nat
  | [] => 0
  | x :: xs => if x = c then 0 else idxOfCol c xs + 1

/-- Cell of a row at a column index, empty when out of range. -/
def cellAt (row : List String) (i : Nat) : String :=
  row.getD i ""

/-- Key of a row under a frame's header: the values of the compare
columns, in order. -/
def keyOf (header : List String) (cols : List String) (row : List String) :
    List String :=
  cols.map (fun c => cellAt row (idxOfCol c header))

/-- `df.drop_duplicates(subset=cols)`: keep the first row of each key. -/
def dropDupByKey (header cols : List String) (seen : List (List String)) :
    List (List String) → List (List String)
  | [] => []
  | r :: rs =>
    let k := keyOf header cols r
    if seen.contains k then dropDupByKey header cols seen rs
    else r :: dropDupByKey header cols (k :: seen) rs

/-- `_process_dataframe` of FileDeduplicator: translate the `['B']`
column shorthand to the second column name, raise a `ValueError` naming
the first compare column missing from the header, drop internal
duplicates keeping first occurrences, and drop rows whose key occurs in
the combined older data (skipped when the combined data is empty). -/
def processDataframe (df : Frame) (combined : Frame) (colsIn : List String) :
    Except String Frame :=
  let cols := if colsIn = ["B"] then [df.cols.getD 1 ""] else colsIn
  match cols.find? (fun c => !(df.cols.contains c)) with
  | some c => Except.error ("Column '" ++ c ++ "' not found in the file.")
  | none =>
    let internal := dropDupByKey df.cols cols [] df.rows
    let final :=
      if combined.rows = [] then internal
      else
        let extKeys := combined.rows.map (keyOf combined.cols cols)
        internal.filter (fun r => !(extKeys.contains (keyOf df.cols cols r)))
    Except.ok ⟨df.cols, final⟩

/-! ## Lemma toolkit: run collapsing and stripping -/

/-- No two adjacent characters of the list both satisfy `p`. -/
def NoAdjB (p : Char → Bool) : List Char → Bool
  | [] => true
  | [_] => true
  | a :: b :: t => !(p a && p b) && NoAdjB p (b :: t)

theorem noadjB_tail {p : Char → Bool} {a : Char} {l : List Char}
    (h : NoAdjB p (a :: l) = true) : NoAdjB p l = true := by
  cases l with
  | nil => rfl
  | cons b t =>
    simp only [NoAdjB, Bool.and_eq_true] at h
    exact h.2

theorem noadjB_cons_of_not {p : Char → Bool} {a : Char} {l : List Char}
    (ha : p a = false) (hl : NoAdjB p l = true) : NoAdjB p (a :: l) = true := by
  cases l with
  | nil => rfl
  | cons b t => simp [NoAdjB, ha, hl]

theorem noadjB_cons_of_head {p : Char → Bool} {a : Char} {l : List Char}
    (hl : NoAdjB p l = true) (hh : ∀ y, l.head? = some y → p y = false) :
    NoAdjB p (a :: l) = true := by
  cases l with
  | nil => rfl
  | cons b t => simp [NoAdjB, hh b rfl, hl]

theorem mem_collapseRuns {p : Char → Bool} {r c : Char} :
    ∀ {b : Bool} {l : List Char}, c ∈ collapseRuns p r b l →
      c = r ∨ (c ∈ l ∧ p c = false)
  | b, [], h => by simp [collapseRuns] at h
  | b, x :: xs, h => by
    by_cases hx : p x = true
    · cases b with
      | true =>
        simp only [collapseRuns, hx, if_true] at h
        rcases mem_collapseRuns h with h1 | ⟨h1, h2⟩
        · exact Or.inl h1
        · exact Or.inr ⟨List.mem_cons_of_mem _ h1, h2⟩
      | false =>
        simp only [collapseRuns, hx, if_true] at h
        rcases List.mem_cons.mp h with h1 | h1
        · exact Or.inl h1
        · rcases mem_collapseRuns h1 with h2 | ⟨h2, h3⟩
          · exact Or.inl h2
          · exact Or.inr ⟨List.mem_cons_of_mem _ h2, h3⟩
    · have hx' : p x = false := by revert hx; cases p x <;> simp
      simp only [collapseRuns, hx', Bool.false_eq_true, if_false] at h
      rcases List.mem_cons.mp h with h1 | h1
      · exact Or.inr ⟨by simp [h1], by simpa [h1] using hx'⟩
      · rcases mem_collapseRuns h1 with h2 | ⟨h2, h3⟩
        · exact Or.inl h2
        · exact Or.inr ⟨List.mem_cons_of_mem _ h2, h3⟩

theorem head_collapseRuns_true {p : Char → Bool} {r : Char} :
    ∀ {l : List Char} {y : Char},
      (collapseRuns p r true l).head? = some y → p y = false
  | [], y, h => by simp [collapseRuns] at h
  | x :: xs, y, h => by
    by_cases hx : p x = true
    · simp only [collapseRuns, hx, if_true] at h
      exact head_collapseRuns_true h
    · have hx' : p x = false := by revert hx; cases p x <;> simp
      simp only [collapseRuns, hx', Bool.false_eq_true, if_false,
        List.head?_cons, Option.some.injEq] at h
      exact h ▸ hx'

theorem noadjB_collapseRuns {p : Char → Bool} {r : Char} :
    ∀ {l : List Char} {b : Bool}, NoAdjB p (collapseRuns p r b l) = true
  | [], b => rfl
  | x :: xs, b => by
    by_cases hx : p x = true
    · cases b with
      | true => simpa only [collapseRuns, hx, if_true] using
          noadjB_collapseRuns (l := xs) (b := true)
      | false =>
        simp only [collapseRuns, hx, if_true]
        exact noadjB_cons_of_head (noadjB_collapseRuns (l := xs))
          (fun y hy => head_collapseRuns_true hy)
    · have hx' : p x = false := by revert hx; cases p x <;> simp
      simp only [collapseRuns, hx', Bool.false_eq_true, if_false]
      exact noadjB_cons_of_not hx' (noadjB_collapseRuns (l := xs))

theorem collapseRuns_eq_self {p : Char → Bool} {r : Char} :
    ∀ {l : List Char} (b : Bool), (∀ c ∈ l, p c = false) →
      collapseRuns p r b l = l
  | [], b, _ => rfl
  | x :: xs, b, h => by
    have hx : p x = false := h x (List.mem_cons_self x xs)
    simp only [collapseRuns, hx, Bool.false_eq_true, if_false]
    exact congrArg (List.cons x)
      (collapseRuns_eq_self false (fun c hc => h c (List.mem_cons_of_mem _ hc)))

theorem collapseRuns_fix {p : Char → Bool} {r : Char} :
    ∀ {l : List Char}, NoAdjB p l = true → (∀ c ∈ l, p c = true → c = r) →
      collapseRuns p r false l = l ∧
        ((∀ y, l.head? = some y → p y = false) → collapseRuns p r true l = l)
  | [], _, _ => ⟨rfl, fun _ => rfl⟩
  | x :: xs, hn, hr => by
    have ih := collapseRuns_fix (l := xs) (noadjB_tail hn)
      (fun c hc => hr c (List.mem_cons_of_mem _ hc))
    by_cases hx : p x = true
    · have hxr : x = r := hr x (List.mem_cons_self x xs) hx
      have hhead : ∀ y, xs.head? = some y → p y = false := by
        intro y hy
        cases xs with
        | nil => simp at hy
        | cons b t =>
          simp only [List.head?_cons, Option.some.injEq] at hy
          simp only [NoAdjB, Bool.and_eq_true] at hn
          have := hn.1
          rw [hx] at this
          simpa [hy] using this
      constructor
      · simp only [collapseRuns, hx, if_true]
        rw [hxr]
        exact congrArg (List.cons r) (ih.2 hhead)
      · intro hh
        have := hh x rfl
        rw [hx] at this
        cases this
    · have hx' : p x = false := by revert hx; cases p x <;> simp
      refine ⟨?_, fun _ => ?_⟩ <;>
        simp only [collapseRuns, hx', Bool.false_eq_true, if_false] <;>
        exact congrArg (List.cons x) ih.1

theorem collapseRuns_all_true {p : Char → Bool} {r : Char} :
    ∀ {l : List Char}, (∀ c ∈ l, p c = true) → collapseRuns p r true l = []
  | [], _ => rfl
  | x :: xs, h => by
    simp only [collapseRuns, h x (List.mem_cons_self x xs), if_true]
    exact collapseRuns_all_true (fun c hc => h c (List.mem_cons_of_mem _ hc))

theorem collapseRuns_all_false_flag {p : Char → Bool} {r : Char} {x : Char}
    {xs : List Char} (h : ∀ c ∈ x :: xs, p c = true) :
    collapseRuns p r false (x :: xs) = [r] := by
  simp only [collapseRuns, h x (List.mem_cons_self x xs), if_true]
  exact congrArg (List.cons r)
    (collapseRuns_all_true (fun c hc => h c (List.mem_cons_of_mem _ hc)))

theorem head_dropWhile {q : Char → Bool} :
    ∀ {l : List Char} {y : Char}, (l.dropWhile q).head? = some y → q y = false
  | [], y, h => by simp [List.dropWhile] at h
  | x :: xs, y, h => by
    by_cases hx : q x = true
    · rw [List.dropWhile_cons_of_pos hx] at h
      exact head_dropWhile h
    · have hx' : q x = false := by revert hx; cases q x <;> simp
      rw [List.dropWhile_cons_of_neg (by simp [hx'])] at h
      simp only [List.head?_cons, Option.some.injEq] at h
      exact h ▸ hx'

theorem noadjB_dropWhile {p q : Char → Bool} :
    ∀ {l : List Char}, NoAdjB p l = true → NoAdjB p (l.dropWhile q) = true
  | [], _ => rfl
  | x :: xs, h => by
    by_cases hx : q x = true
    · rw [List.dropWhile_cons_of_pos hx]
      exact noadjB_dropWhile (noadjB_tail h)
    · rwa [List.dropWhile_cons_of_neg hx]

theorem dropWhile_eq_self {q : Char → Bool} {l : List Char}
    (h : ∀ y, l.head? = some y → q y = false) : l.dropWhile q = l := by
  cases l with
  | nil => rfl
  | cons x xs => exact List.dropWhile_cons_of_neg (by simp [h x rfl])

theorem mem_rstripP {q : Char → Bool} {c : Char} :
    ∀ {l : List Char}, c ∈ rstripP q l → c ∈ l
  | [], h => by simp [rstripP] at h
  | x :: xs, h => by
    simp only [rstripP] at h
    rcases hxs : rstripP q xs with _ | ⟨d, ds⟩
    · rw [hxs] at h
      by_cases hx : q x = true
      · simp [hx] at h
      · have hx' : q x = false := by revert hx; cases q x <;> simp
        simp only [hx', Bool.false_eq_true, if_false, List.mem_singleton] at h
        simp [h]
    · rw [hxs] at h
      rcases List.mem_cons.mp h with h1 | h1
      · simp [h1]
      · exact List.mem_cons_of_mem _ (mem_rstripP (hxs ▸ h1))

theorem head_rstripP {q : Char → Bool} :
    ∀ {l : List Char}, rstripP q l = [] ∨ (rstripP q l).head? = l.head?
  | [] => Or.inl rfl
  | x :: xs => by
    simp only [rstripP]
    rcases hxs : rstripP q xs with _ | ⟨d, ds⟩
    · by_cases hx : q x = true
      · simp [hx]
      · have hx' : q x = false := by revert hx; cases q x <;> simp
        simp [hx']
    · simp

theorem getLast_rstripP {q : Char → Bool} :
    ∀ {l : List Char} {y : Char}, (rstripP q l).getLast? = some y → q y = false
  | [], y, h => by simp [rstripP] at h
  | x :: xs, y, h => by
    simp only [rstripP] at h
    rcases hxs : rstripP q xs with _ | ⟨d, ds⟩
    · rw [hxs] at h
      by_cases hx : q x = true
      · simp [hx] at h
      · have hx' : q x = false := by revert hx; cases q x <;> simp
        simp only [hx', Bool.false_eq_true, if_false, List.getLast?_singleton,
          Option.some.injEq] at h
        exact h ▸ hx'
    · rw [hxs, List.getLast?_cons_cons] at h
      exact getLast_rstripP (l := xs) (hxs ▸ h)

theorem noadjB_rstripP {p q : Char → Bool} :
    ∀ {l : List Char}, NoAdjB p l = true → NoAdjB p (rstripP q l) = true
  | [], _ => rfl
  | x :: xs, h => by
    simp only [rstripP]
    rcases hxs : rstripP q xs with _ | ⟨d, ds⟩
    · by_cases hx : q x = true
      · simp [hx, NoAdjB]
      · have hx' : q x = false := by revert hx; cases q x <;> simp
        simp [hx', NoAdjB]
    · cases xs with
      | nil => simp [rstripP] at hxs
      | cons b t =>
        have hhead : (rstripP q (b :: t)).head? = (b :: t).head? := by
          rcases head_rstripP (q := q) (l := b :: t) with h1 | h1
          · rw [h1] at hxs; cases hxs
          · exact h1
        rw [hxs] at hhead
        simp only [List.head?_cons, Option.some.injEq] at hhead
        have hdb : d = b := hhead
        simp only [NoAdjB, Bool.and_eq_true] at h
        have htail : NoAdjB p (d :: ds) = true := hxs ▸ noadjB_rstripP h.2
        subst hdb
        simp [NoAdjB, htail, h.1]

theorem rstripP_eq_self {q : Char → Bool} :
    ∀ {l : List Char}, (∀ y, l.getLast? = some y → q y = false) → rstripP q l = l
  | [], _ => rfl
  | x :: xs, h => by
    cases xs with
    | nil => simp [rstripP, h x rfl]
    | cons b t =>
      have ih : rstripP q (b :: t) = b :: t :=
        rstripP_eq_self (fun y hy => h y (by rw [List.getLast?_cons_cons]; exact hy))
      have hu : rstripP q (x :: b :: t) =
          match rstripP q (b :: t) with
          | [] => if q x = true then [] else [x]
          | d :: ds => x :: d :: ds := rfl
      rw [hu, ih]

/-! ## Character-class facts for slugs -/

theorem isHy_eq_hyphen {c : Char} (h : isHy c = true) : c = '-' := by
  simpa [isHy] using h

theorem toLowerChar_fix {c : Char} (h : isLowerNum c = true ∨ c = '-') :
    toLowerChar c = c := by
  rcases h with h | rfl
  · simp only [isLowerNum, Bool.or_eq_true, Bool.and_eq_true, decide_eq_true_eq] at h
    simp only [toLowerChar]
    rw [if_neg]
    simp only [Bool.and_eq_true, decide_eq_true_eq, not_and, not_le]
    omega
  · decide

theorem keepSlug_of_canon {c : Char} (h : isLowerNum c = true ∨ c = '-') :
    keepSlug c = true := by
  rcases h with h | rfl
  · simp [keepSlug, h]
  · decide

theorem pyIsSpace_of_canon {c : Char} (h : isLowerNum c = true ∨ c = '-') :
    pyIsSpace c = false := by
  rcases h with h | rfl
  · by_contra hs
    have hs' : pyIsSpace c = true := by revert hs; cases pyIsSpace c <;> simp
    simp only [pyIsSpace, Bool.or_eq_true, decide_eq_true_eq] at hs'
    rcases hs' with ((((rfl | rfl) | rfl) | rfl) | rfl) | rfl <;>
      simp [isLowerNum] at h
  · decide

theorem isLowerNum_not_hyphen {c : Char} (h : isLowerNum c = true) :
    isHy c = false := by
  by_contra hy
  have hy' : isHy c = true := by revert hy; cases isHy c <;> simp
  rw [isHy_eq_hyphen hy'] at h
  simp [isLowerNum] at h

/-! ## Canonical form of generated slugs -/

theorem mem_slugChars {t : List Char} {c : Char} (h : c ∈ slugChars t) :
    isLowerNum c = true ∨ c = '-' := by
  unfold slugChars stripP lstripP at h
  have h1 := (List.dropWhile_sublist _).subset (mem_rstripP h)
  rcases mem_collapseRuns h1 with h2 | ⟨h2, _⟩
  · exact Or.inr h2
  rcases mem_collapseRuns h2 with h3 | ⟨h3, hsp⟩
  · exact Or.inr h3
  have h4 := List.mem_filter.mp h3
  have hk := h4.2
  simp only [keepSlug, Bool.or_eq_true, decide_eq_true_eq] at hk
  rcases hk with (hk | hk) | hk
  · exact Or.inl hk
  · rw [hk] at hsp; cases hsp
  · exact Or.inr hk

theorem noadjB_slugChars (t : List Char) : NoAdjB isHy (slugChars t) = true := by
  unfold slugChars stripP lstripP
  exact noadjB_rstripP (noadjB_dropWhile noadjB_collapseRuns)

theorem head_slugChars {t : List Char} {y : Char}
    (h : (slugChars t).head? = some y) : isHy y = false := by
  unfold slugChars stripP lstripP at h
  rcases head_rstripP (q := isHy) with h1 | h1
  · rw [h1] at h; cases h
  · rw [h1] at h
    exact head_dropWhile h

theorem getLast_slugChars {t : List Char} {y : Char}
    (h : (slugChars t).getLast? = some y) : isHy y = false := by
  unfold slugChars stripP lstripP at h
  exact getLast_rstripP h

theorem map_toLowerChar_id {l : List Char}
    (h : ∀ c ∈ l, isLowerNum c = true ∨ c = '-') : l.map toLowerChar = l := by
  induction l with
  | nil => rfl
  | cons x xs ih =>
    rw [List.map_cons, toLowerChar_fix (h x (List.mem_cons_self x xs)),
      ih (fun c hc => h c (List.mem_cons_of_mem _ hc))]

theorem slugChars_fix {l : List Char}
    (hmem : ∀ c ∈ l, isLowerNum c = true ∨ c = '-')
    (hadj : NoAdjB isHy l = true)
    (hhead : ∀ y, l.head? = some y → isHy y = false)
    (hlast : ∀ y, l.getLast? = some y → isHy y = false) :
    slugChars l = l := by
  have hmap : l.map toLowerChar = l := map_toLowerChar_id hmem
  have hfilt : l.filter keepSlug = l :=
    List.filter_eq_self.mpr (fun c hc => keepSlug_of_canon (hmem c hc))
  have hsp : collapseRuns pyIsSpace '-' false l = l :=
    collapseRuns_eq_self false (fun c hc => pyIsSpace_of_canon (hmem c hc))
  have hhy : collapseRuns isHy '-' false l = l :=
    (collapseRuns_fix hadj (fun c _ hc => isHy_eq_hyphen hc)).1
  have hdrop : l.dropWhile isHy = l := dropWhile_eq_self hhead
  have hr : rstripP isHy l = l := rstripP_eq_self hlast
  unfold slugChars stripP lstripP
  rw [hmap, hfilt, hsp, hhy, hdrop, hr]

/-! ## Claim C9 -/

/-- C9: `generate_slug` is idempotent — applying it to its own output
changes nothing, because every output consists only of characters in
`[a-z0-9-]` with no leading, trailing, or repeated hyphens, and such
strings are fixed points of the function. -/
theorem generate_slug_idempotent (t : String) :
    generate_slug (generate_slug t) = generate_slug t := by
  unfold generate_slug
  exact congrArg String.mk (slugChars_fix
    (fun c hc => mem_slugChars hc)
    (noadjB_slugChars t.data)
    (fun y hy => head_slugChars hy)
    (fun y hy => getLast_slugChars hy))

/-! ## Claim C6 -/

/-- C6: `generate_slug` is a pure function of its input that realizes the
lower-case/filter/hyphenate/collapse/trim pipeline; the two titles
differing only in a trailing `!` receive the same slug, namely
`venom-pheromone-perfume-collection-flower-scent`, and a title with no
retainable (alphanumeric after lower-casing) character yields the empty
string. -/
theorem generate_slug_behaviour :
    generate_slug "Venom Pheromone Perfume Collection, Flower Scent!" =
      generate_slug "Venom Pheromone Perfume Collection, Flower Scent" ∧
    generate_slug "Venom Pheromone Perfume Collection, Flower Scent" =
      "venom-pheromone-perfume-collection-flower-scent" ∧
    ∀ t : String, (∀ c ∈ t.data, isLowerNum (toLowerChar c) = false) →
      generate_slug t = "" := by
  refine ⟨by decide, by decide, ?_⟩
  intro t h
  have hm0 : ∀ c ∈ (t.data.map toLowerChar).filter keepSlug,
      pyIsSpace c = true ∨ c = '-' := by
    intro c hc
    have h1 := List.mem_filter.mp hc
    rcases List.mem_map.mp h1.1 with ⟨x, hx, rfl⟩
    have hk := h1.2
    simp only [keepSlug, Bool.or_eq_true, decide_eq_true_eq] at hk
    rcases hk with (hk | hk) | hk
    · rw [h x hx] at hk; cases hk
    · exact Or.inl hk
    · exact Or.inr hk
  have hm1 : ∀ c ∈ collapseRuns pyIsSpace '-' false
      ((t.data.map toLowerChar).filter keepSlug), isHy c = true := by
    intro c hc
    rcases mem_collapseRuns hc with rfl | ⟨hc1, hc2⟩
    · decide
    · rcases hm0 c hc1 with hsp | rfl
      · rw [hsp] at hc2; cases hc2
      · decide
  show String.mk (slugChars t.data) = ""
  unfold slugChars
  rcases hm : collapseRuns pyIsSpace '-' false
      ((t.data.map toLowerChar).filter keepSlug) with _ | ⟨x, xs⟩
  · rfl
  · rw [hm] at hm1
    rw [collapseRuns_all_false_flag hm1]
    rfl

/-- Witness: the all-punctuation title `"???"` has no retainable
character, so its slug is empty. -/
theorem generate_slug_behaviour_witness : generate_slug "???" = "" :=
  generate_slug_behaviour.2.2 "???" (by decide)

/-! ## Claims C3 and C4: the append-id deduplicator -/

/-- A three-row input whose third original title coincides with the
disambiguated form of the second row. -/
def collideRows : List (List String) :=
  [["1", "A"], ["2", "A"], ["3", "A - 2"]]

/-- C3 evaluation: on `collideRows` the deduplicator keeps all three rows
(output row count equals input row count) but the slugs generated from
the output titles are `a`, `a-2`, `a-2` — not pairwise distinct, because
the disambiguated title `"A - 2"` of row 2 collides with the untouched
title of row 3.  The repository's own test
(`verify_results` in slug_deduplicator/test_deduplicator.py) requires
the fixed file to contain no duplicate slugs, so this contradicts the
code's intended behaviour. -/
theorem find_and_fix_duplicates_output_slugs_collide :
    (find_and_fix_duplicates collideRows).rows =
      [["1", "A"], ["2", "A - 2"], ["3", "A - 2"]] ∧
    (find_and_fix_duplicates collideRows).rows.length = collideRows.length ∧
    ((find_and_fix_duplicates collideRows).rows.map
      (fun r => generate_slug (r.getD 1 ""))) = ["a", "a-2", "a-2"] ∧
    ¬ ((find_and_fix_duplicates collideRows).rows.map
      (fun r => generate_slug (r.getD 1 ""))).Nodup := by
  refine ⟨by decide, by decide, by decide, ?_⟩
  intro h
  rw [show ((find_and_fix_duplicates collideRows).rows.map
    (fun r => generate_slug (r.getD 1 ""))) = ["a", "a-2", "a-2"] from by decide] at h
  simp at h

/-- C4 evaluation: running the deduplicator a second time over its own
output for `collideRows` applies one further fix, not zero — the first
run leaves the duplicate slug `a-2` in its output, which the second run
then "fixes". -/
theorem find_and_fix_duplicates_second_run_fixes :
    (find_and_fix_duplicates
      (find_and_fix_duplicates collideRows).rows).fixes = 1 ∧
    (find_and_fix_duplicates
      (find_and_fix_duplicates collideRows).rows).fixes ≠ 0 := by
  refine ⟨by decide, by decide⟩

/-! ## Claim C7 -/

/-- Counterexample to C7 as stated: the non-empty title `"!!!"` produces
the empty slug, and `find_and_fix_duplicates` substitutes no fallback —
it even uses the empty slug as a dedup key, "fixing" the second
all-punctuation title against it. -/
theorem generate_slug_empty_no_fallback :
    generate_slug "!!!" = "" ∧ ("!!!" : String) ≠ "" ∧
    (find_and_fix_duplicates [["7", "!!!"], ["8", "???"]]).rows =
      [["7", "!!!"], ["8", "??? - 8"]] := by
  refine ⟨by decide, by decide, by decide⟩

theorem getField_setField_found {row : List (String × String)} {k v : String}
    {q : String × String} (hq : row.find? (fun p => p.1 = k) = some q) :
    getField (setField row k v) k = v := by
  induction row with
  | nil => simp [List.find?] at hq
  | cons x xs ih =>
    by_cases hx : x.1 = k
    · simp [getField, setField, List.find?, hx]
    · rw [List.find?_cons_of_neg _ (by simp [hx])] at hq
      have htail := ih hq
      simp only [setField, List.map_cons, if_neg hx]
      simp only [getField, setField] at htail ⊢
      rwa [List.find?_cons_of_neg _ (by simp [hx])]

theorem getField_setField_other {row : List (String × String)} {k k2 v : String}
    (hne : k2 ≠ k) : getField (setField row k v) k2 = getField row k2 := by
  induction row with
  | nil => rfl
  | cons x xs ih =>
    by_cases hx : x.1 = k
    · have hx2 : x.1 ≠ k2 := by rw [hx]; exact fun he => hne he.symm
      simp only [setField, List.map_cons, if_pos hx, getField]
      rw [List.find?_cons_of_neg _ (by simp [hx2]),
        List.find?_cons_of_neg _ (by simp [hx2])]
      simpa [getField, setField] using ih
    · simp only [setField, List.map_cons, if_neg hx, getField]
      by_cases hx2 : x.1 = k2
      · rw [List.find?_cons_of_pos _ (by simp [hx2]),
          List.find?_cons_of_pos _ (by simp [hx2])]
      · rw [List.find?_cons_of_neg _ (by simp [hx2]),
          List.find?_cons_of_neg _ (by simp [hx2])]
        simpa [getField, setField] using ih

theorem product_append_ne_empty (x : String) : ("product-" ++ x) ≠ "" := by
  intro h
  have h2 := congrArg String.data h
  rw [String.data_append] at h2
  simp at h2

/-- C7 amended: the identifier-based fallback lives in the URL-encoded
slug cleaner.  For every row whose slug field contains a `%xx` pattern,
the slug written by `processRow` is non-empty: the cleaned slug when it
is non-empty, else `product-<id>` or `product-<row_num>`. -/
theorem encoded_row_slug_nonempty (n : Nat) (row : List (String × String))
    (h : has_url_encoding (getField row "slug").data = true) :
    getField (processRow n row) "slug" ≠ "" := by
  have hne : getField row "slug" ≠ "" := by
    intro he
    rw [he] at h
    exact absurd h (by decide)
  obtain ⟨q, hq⟩ : ∃ q, row.find? (fun p => p.1 = "slug") = some q := by
    cases hf : row.find? (fun p => p.1 = "slug") with
    | none =>
      exfalso
      apply hne
      simp [getField, hf]
    | some q => exact ⟨q, rfl⟩
  simp only [processRow, h, if_true]
  rw [getField_setField_found hq]
  by_cases hc : decode_and_clean_slug (getField row "slug") = ""
  · rw [if_pos hc]
    exact product_append_ne_empty _
  · rwa [if_neg hc]

/-- Witness for the amended C7 theorem at a concrete encoded row. -/
theorem encoded_row_slug_nonempty_witness :
    getField (processRow 2 [("product_id", "55"), ("slug", "%e3%80%90")]) "slug" ≠ "" :=
  encoded_row_slug_nonempty 2 [("product_id", "55"), ("slug", "%e3%80%90")] (by decide)

/-! ## Claim C2: fallbacks of the two price parsers -/

theorem pyStrip_nil_of_all {l : List Char} (h : ∀ c ∈ l, pyIsSpace c = true) :
    pyStrip l = [] := by
  unfold pyStrip stripP lstripP
  rw [List.dropWhile_eq_nil_iff.mpr h]
  rfl

/-- Counterexample to C2 as stated: `process_price` does not return the
zero fallback on `"N/A"` or on the empty string — it returns the
stripped input unchanged. -/
theorem process_price_na_counterexample :
    process_price "N/A" 1 = "N/A" ∧ process_price "" 1 = "" ∧
    ("N/A" : String) ≠ "0.00" ∧ ("" : String) ≠ "0.00" :=
  ⟨rfl, rfl, by decide, by decide⟩

/-- C2 amended: for every multiplier, `clean_price` maps the empty
string, `"N/A"` and every whitespace-only string to `"0.00"`, while
`process_price` maps those inputs to their stripped form (the original
string for `""` and `"N/A"`, the empty string for whitespace); both are
total functions, so neither raises. -/
theorem price_parser_fallbacks (m : ℚ) :
    clean_price "" m = "0.00" ∧ clean_price "N/A" m = "0.00" ∧
    (∀ s : String, (∀ c ∈ s.data, pyIsSpace c = true) → clean_price s m = "0.00") ∧
    process_price "" m = "" ∧ process_price "N/A" m = "N/A" ∧
    (∀ s : String, (∀ c ∈ s.data, pyIsSpace c = true) → process_price s m = "") := by
  refine ⟨rfl, rfl, ?_, rfl, rfl, ?_⟩
  · intro s h
    have hs := pyStrip_nil_of_all h
    unfold clean_price
    rw [if_pos (by simp [hs])]
  · intro s h
    have hs := pyStrip_nil_of_all h
    simp only [process_price, hs]
    rfl

/-- Witness for the amended C2 theorem at multiplier 1 and a concrete
whitespace-only string. -/
theorem price_parser_fallbacks_witness :
    clean_price "  " 1 = "0.00" ∧ process_price "  " 1 = "" := by
  have h := price_parser_fallbacks 1
  exact ⟨h.2.2.1 "  " (by decide), h.2.2.2.2.2 "  " (by decide)⟩

/-! ## Two fraction digits of fmt2 -/

theorem digitChar_ne_dot {x : Nat} (hx : x ≤ 9) : Char.ofNat (48 + x) ≠ '.' := by
  interval_cases x <;> decide

theorem digitChar_isDigit {x : Nat} (hx : x ≤ 9) :
    isDigitC (Char.ofNat (48 + x)) = true := by
  interval_cases x <;> decide

theorem afterLast_dot_append {x : List Char} {d1 d2 : Char}
    (h1 : d1 ≠ '.') (h2 : d2 ≠ '.') :
    afterLast '.' (x ++ '.' :: [d1, d2]) = [d1, d2] := by
  unfold afterLast
  rw [List.reverse_append]
  show (List.takeWhile _ (d2 :: d1 :: '.' :: x.reverse)).reverse = _
  rw [List.takeWhile_cons_of_pos (by simp [h2]),
    List.takeWhile_cons_of_pos (by simp [h1]),
    List.takeWhile_cons_of_neg (by simp)]
  rfl

theorem fmt2_frac_digits (q : ℚ) :
    (afterLast '.' (fmt2 q).data).length = 2 ∧
    ∀ c ∈ afterLast '.' (fmt2 q).data, isDigitC c = true := by
  have hd1 : (roundHalfEven (q * 100)).natAbs % 100 / 10 % 10 ≤ 9 := by omega
  have hd2 : (roundHalfEven (q * 100)).natAbs % 100 % 10 ≤ 9 := by omega
  have hdata : (fmt2 q).data =
      ((if roundHalfEven (q * 100) < 0 then ['-'] else []) ++
        (Nat.repr ((roundHalfEven (q * 100)).natAbs / 100)).data) ++
      '.' :: [Char.ofNat (48 + (roundHalfEven (q * 100)).natAbs % 100 / 10 % 10),
        Char.ofNat (48 + (roundHalfEven (q * 100)).natAbs % 100 % 10)] := by
    simp only [fmt2, digit2, List.append_assoc]
  rw [hdata, afterLast_dot_append (digitChar_ne_dot hd1) (digitChar_ne_dot hd2)]
  refine ⟨rfl, ?_⟩
  intro c hc
  rcases List.mem_cons.mp hc with rfl | hc2
  · exact digitChar_isDigit hd1
  rcases List.mem_cons.mp hc2 with rfl | hc3
  · exact digitChar_isDigit hd2
  · cases hc3

/-! ## Claim C1: range handling of the price parsers -/

/-- Counterexample to C1 as stated: a range written with `" - "` is not
split by either parser.  `process_price` fails to parse it and returns
the (stripped) input unchanged rather than `2.00`, and `clean_price`
has no range handling at all — even the `" to "` form of the claim's
own example collapses to the `"0.00"` fallback there. -/
theorem process_price_dash_range_not_split :
    process_price "$1.00 - $2.00" 1 = "$1.00 - $2.00" ∧
    ("$1.00 - $2.00" : String) ≠ "2.00" ∧
    clean_price "$15.74 to $150.00" 1 = "0.00" ∧
    ("0.00" : String) ≠ "150.00" := by
  refine ⟨by decide, by decide, by decide, by decide⟩

/-- C1 amended: only `process_price` splits ranges and only on the
separator `" to "`.  For a stripped input that splits into two pieces
both of which parse (after `$` and `,` removal) to nonnegative values,
and for a nonnegative multiplier, the result is the larger parsed value
multiplied by the multiplier and formatted with exactly two fraction
digits.  Ranges written `"<A> - <B>"` fall through to the failure
fallback instead. -/
theorem process_price_to_range (s : String) (a b : List Char) (m qa qb : ℚ)
    (hstrip : pyStrip s.data = s.data)
    (hcontain : containsToSep s.data = true)
    (hsplit : splitToSep s.data = [a, b])
    (ha : pyFloat (remDC a) = some qa)
    (hb : pyFloat (remDC b) = some qb)
    (hqa : 0 ≤ qa) (hqb : 0 ≤ qb) (hm : 0 ≤ m) :
    process_price s m = fmt2 (max qa qb * m) ∧
    (afterLast '.' (fmt2 (max qa qb * m)).data).length = 2 := by
  refine ⟨?_, (fmt2_frac_digits (max qa qb * m)).1⟩
  simp only [process_price, hstrip, hcontain, if_true, hsplit]
  simp only [maxByKey, maxByAux, priceKey, ha, hb]
  by_cases hlt : qa < qb
  · rw [if_pos hlt]
    simp only [maxByAux, hb]
    rw [max_eq_right (le_of_lt hlt)]
  · rw [if_neg hlt]
    simp only [maxByAux, ha]
    rw [max_eq_left (not_lt.mp hlt)]

set_option maxRecDepth 8000 in
/-- Witness for the amended C1 theorem: the spec's own example. -/
theorem process_price_to_range_witness :
    process_price "$15.74 to $150.00" 1 = "150.00" := by
  have h := (process_price_to_range "$15.74 to $150.00"
    "$15.74".data "$150.00".data 1 (1574 / 100) 150
    (by decide) (by decide) (by decide)
    (by with_unfolding_all decide) (by with_unfolding_all decide)
    (by norm_num) (by norm_num) (by norm_num)).1
  rw [h]
  with_unfolding_all decide

/-! ## Claim C5: separator disambiguation in clean_price -/

/-- Counterexample to C5 as stated: for `"1,2,"` zero digits follow the
last comma, so by the claim the commas are thousands separators to be
removed, giving `12.00`; the code instead replaces every comma by a
point whenever at most two characters follow the last comma, producing
the unparseable `1.2.` and the `"0.00"` fallback. -/
theorem clean_price_trailing_comma_counterexample :
    clean_price "1,2," 1 = "0.00" ∧
    clean_price_per_claim "1,2," 1 = "12.00" ∧
    ("0.00" : String) ≠ "12.00" := by
  refine ⟨by decide, by with_unfolding_all decide, by decide⟩

/-- C5 amended: when both separators occur, the one occurring last is
the decimal separator — all occurrences of the other are removed and
every comma becomes a point; when only commas occur they all become
points exactly when at most two characters (including zero) follow the
last comma, and are otherwise all removed.  The spec's European example
evaluates as claimed. -/
theorem clean_price_separator_rules :
    (∀ pc : List Char, pc.contains ',' = true → pc.contains '.' = true →
      lastIdxOf ',' pc > lastIdxOf '.' pc →
      sepNormalize pc = (pc.filter (fun c => !(c = '.'))).map
        (fun c => if c = ',' then '.' else c)) ∧
    (∀ pc : List Char, pc.contains ',' = true → pc.contains '.' = true →
      ¬ lastIdxOf ',' pc > lastIdxOf '.' pc →
      sepNormalize pc = pc.filter (fun c => !(c = ','))) ∧
    (∀ pc : List Char, pc.contains ',' = true → pc.contains '.' = false →
      (afterLast ',' pc).length ≤ 2 →
      sepNormalize pc = pc.map (fun c => if c = ',' then '.' else c)) ∧
    (∀ pc : List Char, pc.contains ',' = true → pc.contains '.' = false →
      ¬ (afterLast ',' pc).length ≤ 2 →
      sepNormalize pc = pc.filter (fun c => !(c = ','))) ∧
    clean_price "1.234,56" 1 = "1234.56" ∧
    clean_price "1,50" 1 = "1.50" ∧
    clean_price "1,234" 1 = "1234.00" ∧
    clean_price "12," 1 = "12.00" := by
  refine ⟨?_, ?_, ?_, ?_, ?_, ?_, ?_, ?_⟩
  · intro pc h1 h2 h3
    simp only [sepNormalize, h1, h2, Bool.and_self, if_true, if_pos h3]
  · intro pc h1 h2 h3
    simp only [sepNormalize, h1, h2, Bool.and_self, if_true, if_neg h3]
  · intro pc h1 h2 h3
    simp only [sepNormalize, h1, h2, Bool.and_false, Bool.false_eq_true,
      if_false, if_true, if_pos h3]
  · intro pc h1 h2 h3
    simp only [sepNormalize, h1, h2, Bool.and_false, Bool.false_eq_true,
      if_false, if_true, if_neg h3]
  · with_unfolding_all decide
  · with_unfolding_all decide
  · with_unfolding_all decide
  · with_unfolding_all decide

/-- Witness for the amended C5 theorem: the only-comma decimal branch at
a concrete input, and the European-format example. -/
theorem clean_price_separator_rules_witness :
    sepNormalize ("1,50".data) = "1.50".data ∧
    clean_price "1.234,56" 1 = "1234.56" := by
  have h := clean_price_separator_rules
  constructor
  · rw [h.2.2.1 ("1,50".data) (by decide) (by decide) (by decide)]
    decide
  · exact h.2.2.2.2.1

/-! ## Claim C8: missing compare column aborts the run -/

/-- C8: with the `['B']` shorthand not in use, a compare column missing
from the input frame's header makes `_process_dataframe` fail with a
`ValueError` naming that column, and no output frame is produced;
likewise `process_csv` with no `slug` column reports the error naming
`slug` and produces no output rows. -/
theorem missing_column_error (df combined : Frame) (colsIn : List String)
    (c : String) (hB : colsIn ≠ ["B"])
    (hfind : colsIn.find? (fun x => !(df.cols.contains x)) = some c) :
    processDataframe df combined colsIn =
      Except.error ("Column '" ++ c ++ "' not found in the file.") ∧
    (∀ out, processDataframe df combined colsIn ≠ Except.ok out) ∧
    (∀ (fns : List String) (rows : List (List (String × String))),
      fns.contains "slug" = false →
      process_csv fns rows = Except.error "No 'slug' column found in CSV!" ∧
      ∀ outRows, process_csv fns rows ≠ Except.ok outRows) := by
  have h1 : processDataframe df combined colsIn =
      Except.error ("Column '" ++ c ++ "' not found in the file.") := by
    simp only [processDataframe, if_neg hB, hfind]
  refine ⟨h1, ?_, ?_⟩
  · intro out hout
    rw [h1] at hout
    exact Except.noConfusion hout
  · intro fns rows hf
    have h2 : process_csv fns rows =
        Except.error "No 'slug' column found in CSV!" := by
      have hnm : "slug" ∉ fns := by simpa using hf
      unfold process_csv
      rw [if_pos (by simp [hnm])]
    exact ⟨h2, fun o ho => by rw [h2] at ho; exact Except.noConfusion ho⟩

/-- Witness for the C8 theorem at a concrete frame missing the `price`
column and a concrete header missing the `slug` column. -/
theorem missing_column_error_witness :
    processDataframe ⟨["id", "title"], [["1", "x"]]⟩ ⟨[], []⟩ ["price"] =
      Except.error "Column 'price' not found in the file." ∧
    process_csv ["id", "title"] [] =
      Except.error "No 'slug' column found in CSV!" := by
  have h := missing_column_error ⟨["id", "title"], [["1", "x"]]⟩ ⟨[], []⟩
    ["price"] "price" (by decide) (by decide)
  constructor
  · rw [h.1]
    exact congrArg Except.error (by decide)
  · exact (h.2.2 ["id", "title"] [] (by decide)).1

/-! ## Claim C10: only the slug field is ever modified -/

/-- C10: a row whose slug field contains no `%xx` pattern passes through
`processRow` entirely unchanged; for any row, every field other than
`slug` is unchanged; and the row loop writes exactly one output row per
input row. -/
theorem clean_csv_only_slug_modified (n : Nat) (row : List (String × String)) :
    (has_url_encoding (getField row "slug").data = false → processRow n row = row) ∧
    (∀ k, k ≠ "slug" → getField (processRow n row) k = getField row k) ∧
    (∀ (rows : List (List (String × String))) (n2 : Nat),
      (processRows n2 rows).length = rows.length) := by
  refine ⟨?_, ?_, ?_⟩
  · intro h
    simp [processRow, h]
  · intro k hk
    by_cases h : has_url_encoding (getField row "slug").data = true
    · simp only [processRow, h, if_true]
      exact getField_setField_other hk
    · have h2 : has_url_encoding (getField row "slug").data = false := by
        revert h; cases has_url_encoding (getField row "slug").data <;> simp
      simp [processRow, h2]
  · intro rows
    induction rows with
    | nil => intro n2; rfl
    | cons r rs ih => intro n2; simp [processRows, ih]

/-- Witness for the C10 theorem: an unencoded row passes through
unchanged, and the title of an encoded row is untouched. -/
theorem clean_csv_only_slug_modified_witness :
    processRow 2 [("slug", "abc"), ("title", "T")] =
      [("slug", "abc"), ("title", "T")] ∧
    getField (processRow 3 [("slug", "%e3"), ("title", "T")]) "title" = "T" := by
  constructor
  · exact (clean_csv_only_slug_modified 2 [("slug", "abc"), ("title", "T")]).1
      (by decide)
  · rw [(clean_csv_only_slug_modified 3 [("slug", "%e3"), ("title", "T")]).2.1
      "title" (by decide)]
    decide

end Scraper
